import Mathlib

/-!
Verification of the tinydb storage engine (a boltdb-style B+tree over a
paged file) against its natural-language specification.

The Go source is shallowly embedded: byte strings become `List Nat`
(one `Nat` per byte), machine integers become `Nat` with explicit
`% 2 ^ w` where the Go code truncates, page buffers become functions
`Nat → Nat` from byte addresses to byte values, and Go slices backed by
a shared array (as in `mergepgids`) are modelled by threading the
backing array explicitly.  Go loops are modelled either structurally
over lists or with an explicit fuel argument that provably bounds the
number of iterations.  A Go `panic` is modelled by returning `none`.
-/

namespace Tinydb

/-- Byte strings (`[]byte` in Go); each element is one byte. -/
def Bytes : Type := List Nat

instance : DecidableEq Bytes := inferInstanceAs (DecidableEq (List Nat))

/-- `bytes.Compare`: byte-lexicographic comparison, a proper prefix is
smaller. -/
def bcmp : List Nat → List Nat → Ordering
  | [], [] => Ordering.eq
  | [], _ :: _ => Ordering.lt
  | _ :: _, [] => Ordering.gt
  | a :: as, b :: bs =>
      if a < b then Ordering.lt
      else if b < a then Ordering.gt
      else bcmp as bs

/-- `inode` from node.go: an entry of a node.  `flags` is a `uint32`,
`pgid` a `uint64`; keys and values are byte strings. -/
structure Inode where
  flags : Nat
  pgid : Nat
  key : List Nat
  value : List Nat
deriving DecidableEq, Repr

instance : Inhabited Inode := ⟨⟨0, 0, [], []⟩⟩

/-- Go's `sort.Search` binary-search loop.  `fuel` bounds the number of
iterations; each iteration shrinks the interval `[i, j)`, so fuel equal
to the initial interval width is always enough. -/
def goSearchAux (f : Nat → Bool) : Nat → Nat → Nat → Nat
  | 0, i, _ => i
  | fuel + 1, i, j =>
      if i < j then
        let h := (i + j) / 2
        if f h then goSearchAux f fuel i h
        else goSearchAux f fuel (h + 1) j
      else i

/-- Go's `sort.Search(n, f)`: the smallest index in `[0, n]` at which
`f` flips to true, assuming `f` is monotone. -/
def goSearch (n : Nat) (f : Nat → Bool) : Nat := goSearchAux f n 0 n

/-- The effect of `copy(n.inodes[1:], n.inodes[0:])` (Go `copy` has
memmove semantics): every element moves one slot right, the head is
duplicated, the last element is dropped. -/
def copyShiftOne : List Inode → List Inode
  | [] => []
  | x :: xs => x :: List.dropLast (x :: xs)

/-- `(*node).put` from node.go lines 50-74.  Binary-searches for the
first key `≥ oldKey`; if the entry at that index has key equal to the
NEW `key` it is overwritten in place, otherwise an empty inode is
appended and the entries are shifted right ONLY when the index is 0;
finally the entry at the index is overwritten with the new data. -/
def put (inodes : List Inode) (oldKey key value : List Nat) (pg flags : Nat) :
    List Inode :=
  let idx := goSearch inodes.length
    (fun i => !(bcmp (inodes.getD i default).key oldKey == Ordering.lt))
  if idx < inodes.length ∧ (inodes.getD idx default).key = key then
    inodes.set idx ⟨flags, pg, key, value⟩
  else
    let l1 := inodes ++ [default]
    let l2 := if idx = 0 then copyShiftOne l1 else l1
    l2.set idx ⟨flags, pg, key, value⟩

/-- A sequence of leaf-style puts (`oldKey = key`, `pgid = 0`,
`flags = 0`) starting from an empty node. -/
def putList (l : List (List Nat × List Nat)) : List Inode :=
  l.foldl (fun acc kv => put acc kv.1 kv.1 kv.2 0 0) []

/-- Strictly ascending by byte-lexicographic key order (hence keys are
unique): every adjacent pair compares `lt`. -/
def inodesSortedB : List Inode → Bool
  | [] => true
  | [_] => true
  | a :: b :: rest =>
      (bcmp a.key b.key == Ordering.lt) && inodesSortedB (b :: rest)

/-- Strictly ascending by byte-lexicographic key order. -/
def inodesSorted (l : List Inode) : Prop := inodesSortedB l = true

instance (l : List Inode) : Decidable (inodesSorted l) :=
  inferInstanceAs (Decidable (_ = true))

/-- Number of entries of a node carrying a given key. -/
def keyCount (l : List Inode) (k : List Nat) : Nat :=
  l.countP (fun it => it.key = k)

/-! ### Page layout constants (unnamed page source, unsafe.go) -/

/-- `unsafe.Sizeof(page{})` on amd64: id u64, flags u16, count u16,
overflow u32 — 16 bytes. -/
def pageHeaderSize : Nat := 16

/-- flags u32, pos u32, ksize u32, vsize u32 — 16 bytes. -/
def leafPageElementSize : Nat := 16

/-- pos u32, ksize u32, pgid u64 — 16 bytes. -/
def branchPageElementSize : Nat := 16

def branchPageFlag : Nat := 0x01
def leafPageFlag : Nat := 0x02

/-- `maxAllocSize` from unsafe.go: the largest byte range addressable
through `unsafeByteSlice`. -/
def maxAllocSize : Nat := 0x7FFFFFFF

/-- `(*node).pageElementSize()`. -/
def pageElementSize (isLeaf : Bool) : Nat :=
  if isLeaf then leafPageElementSize else branchPageElementSize

/-! ### Node size and split (node.go) -/

/-- A node as `splitTwo`, `splitIndex`, `sizeLessThan` and
`write`/`read` see it: its kind and its entries.  The remaining Go
fields (bucket, pgid, spill flags) play no role in these functions. -/
structure SNode where
  isLeaf : Bool
  inodes : List Inode
deriving DecidableEq, Repr

/-- A parent node as `splitTwo` manipulates it: only its list of
in-memory children matters there. -/
structure PNode where
  children : List SNode
deriving DecidableEq, Repr

/-- `(*node).size()`: serialized size of the node. -/
def size (n : SNode) : Nat :=
  pageHeaderSize +
    (n.inodes.map
      (fun it => pageElementSize n.isLeaf + it.key.length + it.value.length)).sum

/-- The loop of `(*node).sizeLessThan(v)`: returns false as soon as the
running size reaches `v`. -/
def sizeLessThanAux (v elsz : Nat) : Nat → List Inode → Bool
  | _, [] => true
  | sz, it :: rest =>
      let sz2 := sz + elsz + it.key.length + it.value.length
      if v ≤ sz2 then false else sizeLessThanAux v elsz sz2 rest

/-- `(*node).sizeLessThan(v)`. -/
def sizeLessThan (n : SNode) (v : Nat) : Bool :=
  sizeLessThanAux v (pageElementSize n.isLeaf) pageHeaderSize n.inodes

def minKeysPerPage : Nat := 2

/-- The loop of `(*node).splitIndex(threshold)`: iterates over the
first `len(inodes) - minKeysPerPage` entries (passed as the list
argument), assigning `index := i` each iteration and breaking once
`index ≥ minKeysPerPage` and adding the entry would exceed the
threshold. -/
def splitIndexAux (threshold elsz : Nat) :
    List Inode → Nat → Nat → Nat → Nat × Nat
  | [], _, index, sz => (index, sz)
  | it :: rest, i, _, sz =>
      let elsize := elsz + it.key.length + it.value.length
      if minKeysPerPage ≤ i ∧ threshold < sz + elsize then (i, sz)
      else splitIndexAux threshold elsz rest (i + 1) i (sz + elsize)

/-- `(*node).splitIndex(threshold)` from node.go lines 301-321. -/
def splitIndex (n : SNode) (threshold : Nat) : Nat × Nat :=
  splitIndexAux threshold (pageElementSize n.isLeaf)
    (n.inodes.take (n.inodes.length - minKeysPerPage)) 0 0 pageHeaderSize

/-- `(*node).splitTwo(pageSize)` from node.go lines 244-281, with the
parent passed and returned explicitly.  `threshold` is the value of
`int(float64(pageSize) * fillPercent)` computed by the caller from the
clamped bucket fill percent; it is kept as a parameter because the
verified properties hold for every threshold. -/
def splitTwo (n : SNode) (parent : Option PNode) (pageSize threshold : Nat) :
    SNode × Option SNode × Option PNode :=
  if n.inodes.length ≤ minKeysPerPage * 2 ∨ sizeLessThan n pageSize then
    (n, none, parent)
  else
    let si := (splitIndex n threshold).1
    let a : SNode := ⟨n.isLeaf, n.inodes.take si⟩
    let next : SNode := ⟨n.isLeaf, n.inodes.drop si⟩
    -- In Go the parent's `children` holds pointers; a freshly created
    -- parent ends up holding `n` after its truncation, modelled here by
    -- storing the truncated value.  An existing parent's children list
    -- is left as passed (pointer aliasing is outside the value model).
    let p0 : PNode := match parent with
      | none => ⟨[a]⟩
      | some p => p
    (a, some next, some ⟨p0.children ++ [next]⟩)

/-! ### Meta pages, FNV-1a checksum, validation (unnamed meta/db source,
errors.go) -/

def tinyDBVersion : Nat := 1

/-- The `meta` struct: version u32, pageSize u32, pgid u64, txid u64,
checksum u64.  `unsafe.Offsetof(meta{}.checksum) = 24`. -/
structure MetaS where
  version : Nat
  pageSize : Nat
  pgid : Nat
  txid : Nat
  checksum : Nat
deriving DecidableEq, Repr

/-- Little-endian bytes of a `uint32` (amd64 layout). -/
def u32le (v : Nat) : List Nat :=
  [v % 256, v / 256 % 256, v / 65536 % 256, v / 16777216 % 256]

/-- Little-endian bytes of a `uint64` (amd64 layout). -/
def u64le (v : Nat) : List Nat :=
  [v % 256, v / 256 % 256, v / 65536 % 256, v / 16777216 % 256,
   v / 4294967296 % 256, v / 1099511627776 % 256,
   v / 281474976710656 % 256, v / 72057594037927936 % 256]

/-- The 24 bytes of the meta struct preceding the `checksum` field, in
their amd64 memory layout. -/
def metaBytes (m : MetaS) : List Nat :=
  u32le m.version ++ u32le m.pageSize ++ u64le m.pgid ++ u64le m.txid

/-- FNV-1a/64 prime (`hash/fnv`). -/
def fnvPrime : Nat := 1099511628211

/-- FNV-1a/64 offset basis (`hash/fnv`). -/
def fnvOffsetBasis : Nat := 14695981039346656037

/-- One byte of FNV-1a/64: xor, then multiply by the prime modulo
`2^64`. -/
def fnv1aStep (h b : Nat) : Nat :=
  (h ^^^ b) * fnvPrime % 18446744073709551616

/-- FNV-1a/64 of a byte string. -/
def fnv1a (l : List Nat) : Nat := l.foldl fnv1aStep fnvOffsetBasis

/-- `(*meta).sum64()`: FNV-1a/64 over the 24 bytes preceding the
checksum field. -/
def sum64 (m : MetaS) : Nat := fnv1a (metaBytes m)

/-- The two validation errors of errors.go. -/
inductive DbError where
  | versionMismatch
  | checksum
deriving DecidableEq, Repr

/-- `(*meta).validate()`. -/
def validate (m : MetaS) : Option DbError :=
  if m.version ≠ tinyDBVersion then some DbError.versionMismatch
  else if m.checksum ≠ 0 ∧ m.checksum ≠ sum64 m then some DbError.checksum
  else none

/-- The meta validation performed by `Open` (db.go lines 42-53) when the
database file already exists: only the meta of page 0 is read and
validated, and its validation error is returned as the error of the
load. -/
def openExistingMetaCheck (m0 : MetaS) : Option DbError := validate m0

/-- The meta validation performed by `(*Db).mmap` (unnamed db source,
lines 370-377): both metas are validated and an error — `err0` — is
returned only when both fail. -/
def mmapMetaCheck (m0 m1 : MetaS) : Option DbError :=
  match validate m0, validate m1 with
  | some e0, some _ => some e0
  | _, _ => none

/-! ### mergepgids (unnamed page source, lines 125-163)

Go's `merged := dst[:0]` makes `merged` a length-0 slice sharing
`dst`'s backing array, whose capacity is at least `len(dst)`.  Every
`append` to `merged` therefore writes in place into that backing array
as long as the total number of appended elements stays within
`len(dst)` — which the length check at the top guarantees.  The
backing array is modelled explicitly: `setRange dst i xs` is the effect
on it of appending `xs` when the slice currently has length `i`. -/

/-- In-place write of `xs` into `dst` starting at position `i` (the
effect of an append within capacity); elements that would land beyond
`dst.length` are dropped, which never happens on the verified paths. -/
def setRange (dst : List Nat) (i : Nat) (xs : List Nat) : List Nat :=
  dst.take i ++ (xs ++ dst.drop (i + xs.length)).take (dst.length - i)

/-- The merge loop of `mergepgids`: `backing` is `dst`'s backing array,
`mlen` the current length of the `merged` slice.  Returns the backing
array, the final `merged` length and the remaining `follow` (whose
elements the source appends with a discarded result).  `fuel` bounds
the iterations; each iteration either consumes at least one `lead`
element or (only when `lead.head > follow.head`) swaps the lists, so
`2 * (lead.length + follow.length) + 2` iterations always suffice. -/
def mergeLoop : Nat → List Nat → Nat → List Nat → List Nat →
    List Nat × Nat × List Nat
  | 0, backing, mlen, _, follow => (backing, mlen, follow)
  | fuel + 1, backing, mlen, lead, follow =>
      if lead.length = 0 then (backing, mlen, follow)
      else
        let n := goSearch lead.length
          (fun i => decide (follow.headD 0 < lead.getD i 0))
        let backing1 := setRange backing mlen (lead.take n)
        let mlen1 := mlen + (lead.take n).length
        if lead.length ≤ n then (backing1, mlen1, follow)
        else mergeLoop fuel backing1 mlen1 follow (lead.drop n)

/-- `mergepgids(dst, a, b)`: `none` models the panic on a too-short
`dst`; otherwise the returned list is the final contents of `dst`'s
backing array, including the effect of the trailing
`_ = append(merged, follow...)`, which still writes into the backing
array even though its result slice is discarded. -/
def mergepgids (dst a b : List Nat) : Option (List Nat) :=
  if dst.length < a.length + b.length then none
  else if a.length = 0 then some (setRange dst 0 b)
  else if b.length = 0 then some (setRange dst 0 a)
  else
    let lf := if b.headD 0 < a.headD 0 then (b, a) else (a, b)
    let r := mergeLoop (2 * (a.length + b.length) + 2) dst 0 lf.1 lf.2
    some (setRange r.1 r.2.1 r.2.2)

/-- The length of the maximal `≤ f0` prefix of a list: for a sorted
`lead` this is the index Go's `sort.Search` returns for the predicate
`lead[i] > f0`. -/
def leCount (f0 : Nat) : List Nat → Nat
  | [] => 0
  | x :: xs => if x ≤ f0 then leCount f0 xs + 1 else 0

/-! ### Page buffers, node serialization (node.go `write`/`read`)

A page buffer is a byte-addressed memory `Nat → Nat`, zeroed before a
`write`.  Multi-byte fields use the amd64 little-endian layout; u16/u32
stores truncate exactly as the Go field assignments do. -/

def Mem : Type := Nat → Nat

def zeroMem : Mem := fun _ => 0

def writeByte (m : Mem) (a v : Nat) : Mem :=
  fun x => if x = a then v else m x

def writeBytes : Mem → Nat → List Nat → Mem
  | m, _, [] => m
  | m, a, b :: bs => writeBytes (writeByte m a b) (a + 1) bs

def writeU16 (m : Mem) (a v : Nat) : Mem :=
  writeBytes m a [v % 256, v / 256 % 256]

def writeU32 (m : Mem) (a v : Nat) : Mem := writeBytes m a (u32le v)

def writeU64 (m : Mem) (a v : Nat) : Mem := writeBytes m a (u64le v)

def readBytes (m : Mem) (a len : Nat) : List Nat :=
  (List.range len).map fun i => m (a + i)

def readU16 (m : Mem) (a : Nat) : Nat := m a + 256 * m (a + 1)

def readU32 (m : Mem) (a : Nat) : Nat :=
  m a + 256 * m (a + 1) + 65536 * m (a + 2) + 16777216 * m (a + 3)

def readU64 (m : Mem) (a : Nat) : Nat :=
  m a + 256 * m (a + 1) + 65536 * m (a + 2) + 16777216 * m (a + 3) +
    4294967296 * m (a + 4) + 1099511627776 * m (a + 5) +
    281474976710656 * m (a + 6) + 72057594037927936 * m (a + 7)

/-- Total key+value byte count of a list of entries. -/
def dataSizes (l : List Inode) : Nat :=
  (l.map fun it => it.key.length + it.value.length).sum

/-- The per-entry loop of `(*node).write` (node.go lines 110-132):
element `idx` is written at `pageHeaderSize + elemSize*idx`, its
key/value bytes at the running data offset, and `pos` is the distance
from the element to its data.  When an entry has no key and no value
bytes, the Go code evaluates `&pageElemData[0]` on an empty slice and
panics: modelled by `none`. -/
def writeInodeElems : Mem → Bool → Nat → Nat → List Inode → Option Mem
  | m, _, _, _, [] => some m
  | m, isLeaf, idx, dataOff, it :: rest =>
      let dsz := it.key.length + it.value.length
      if dsz = 0 then none
      else
        let elemOff := pageHeaderSize + pageElementSize isLeaf * idx
        let m1 :=
          if isLeaf then
            let ma := writeU32 m (elemOff + 4) (dataOff - elemOff)
            let mb := writeU32 ma elemOff it.flags
            let mc := writeU32 mb (elemOff + 8) it.key.length
            writeU32 mc (elemOff + 12) it.value.length
          else
            let ma := writeU32 m elemOff (dataOff - elemOff)
            let mb := writeU32 ma (elemOff + 4) it.key.length
            writeU64 mb (elemOff + 8) it.pgid
        let m2 := writeBytes m1 dataOff it.key
        let m3 := writeBytes m2 (dataOff + it.key.length) it.value
        writeInodeElems m3 isLeaf (idx + 1) (dataOff + dsz) rest

/-- `(*node).write(p)` from node.go lines 95-133. -/
def write (n : SNode) (m : Mem) : Option Mem :=
  let m1 :=
    if n.isLeaf then writeU16 m 8 (Nat.lor (readU16 m 8) leafPageFlag)
    else writeU16 m 8 (Nat.lor (readU16 m 8) branchPageFlag)
  let m2 := writeU16 m1 10 n.inodes.length
  if n.inodes.length % 65536 = 0 then some m2
  else
    writeInodeElems m2 n.isLeaf 0
      (pageHeaderSize + pageElementSize n.isLeaf * n.inodes.length) n.inodes

/-- `(*node).read(p)` from node.go lines 76-93: fields not copied from
a page element keep the zero value of `make(inodes, count)`. -/
def read (m : Mem) : SNode :=
  let isLeaf : Bool := decide (Nat.land (readU16 m 8) leafPageFlag ≠ 0)
  let count := readU16 m 10
  ⟨isLeaf, (List.range count).map fun i =>
    let elemOff := pageHeaderSize + pageElementSize isLeaf * i
    if isLeaf then
      let pos := readU32 m (elemOff + 4)
      let ksize := readU32 m (elemOff + 8)
      let vsize := readU32 m (elemOff + 12)
      ⟨readU32 m elemOff, 0, readBytes m (elemOff + pos) ksize,
        readBytes m (elemOff + pos + ksize) vsize⟩
    else
      let pos := readU32 m elemOff
      let ksize := readU32 m (elemOff + 4)
      ⟨0, readU64 m (elemOff + 8), readBytes m (elemOff + pos) ksize, []⟩⟩

/-- The five-entry leaf node of `TestNode_split` in node_test.go:
8-byte keys, 16-byte values. -/
def splitExampleNode : SNode :=
  ⟨true,
   [⟨0, 0, List.replicate 8 1, List.replicate 16 0⟩,
    ⟨0, 0, List.replicate 8 2, List.replicate 16 0⟩,
    ⟨0, 0, List.replicate 8 3, List.replicate 16 0⟩,
    ⟨0, 0, List.replicate 8 4, List.replicate 16 0⟩,
    ⟨0, 0, List.replicate 8 5, List.replicate 16 0⟩]⟩

/-! ## Theorems -/

/-- If the full serialized size stays below `v`, the early-exit loop of
`sizeLessThan` never trips. -/
theorem sizeLessThanAux_of_lt (v elsz : Nat) :
    ∀ (l : List Inode) (sz : Nat),
      sz + (l.map (fun it => elsz + it.key.length + it.value.length)).sum < v →
      sizeLessThanAux v elsz sz l = true := by
  intro l
  induction l with
  | nil => intro sz _; rfl
  | cons it rest ih =>
      intro sz h
      simp only [List.map_cons, List.sum_cons] at h
      have h2 : ¬ v ≤ sz + elsz + it.key.length + it.value.length := by omega
      simp only [sizeLessThanAux, if_neg h2]
      exact ih _ (by omega)

/-- Bounds of the `splitIndex` loop: entered with at least three items
to scan, it stops at an index between `minKeysPerPage` and one before
the scan bound. -/
theorem splitIndexAux_bounds (threshold elsz : Nat) :
    ∀ (l : List Inode) (i index sz : Nat),
      3 ≤ i + l.length → ((i = 0 ∧ index = 0) ∨ index + 1 = i) →
      minKeysPerPage ≤ (splitIndexAux threshold elsz l i index sz).1 ∧
      (splitIndexAux threshold elsz l i index sz).1 + 1 ≤ i + l.length := by
  intro l
  induction l with
  | nil =>
      intro i index sz h3 hinv
      simp only [splitIndexAux, List.length_nil] at h3 ⊢
      simp only [minKeysPerPage]
      omega
  | cons it rest ih =>
      intro i index sz h3 hinv
      simp only [splitIndexAux]
      by_cases hb :
          minKeysPerPage ≤ i ∧
            threshold < sz + (elsz + it.key.length + it.value.length)
      · rw [if_pos hb]
        refine ⟨hb.1, ?_⟩
        simp only [List.length_cons]
        omega
      · rw [if_neg hb]
        have := ih (i + 1) i (sz + (elsz + it.key.length + it.value.length))
          (by simp only [List.length_cons] at h3 ⊢; omega) (Or.inr rfl)
        simp only [List.length_cons]
        omega

/-- C9: a node with at most `2 * minKeysPerPage` entries, or whose
serialized size is strictly below the page size, is not split:
`splitTwo` returns the node itself with no sibling and the parent
exactly as passed (in particular no parent is created). -/
theorem C9_splitTwo_skip (n : SNode) (parent : Option PNode)
    (pageSize threshold : Nat)
    (h : n.inodes.length ≤ 4 ∨ size n < pageSize) :
    splitTwo n parent pageSize threshold = (n, none, parent) := by
  have hc : n.inodes.length ≤ minKeysPerPage * 2 ∨
      (sizeLessThan n pageSize : Bool) = true := by
    rcases h with h | h
    · exact Or.inl (by simpa [minKeysPerPage] using h)
    · refine Or.inr ?_
      unfold sizeLessThan
      refine sizeLessThanAux_of_lt _ _ _ _ ?_
      unfold size at h
      omega
  unfold splitTwo
  rw [if_pos hc]

/-- C9 witness: a two-entry node with a tiny page size is returned
unsplit, parent untouched. -/
theorem C9_splitTwo_skip_witness :
    splitTwo ⟨true, [⟨0, 0, [1], [2]⟩, ⟨0, 0, [3], [4]⟩]⟩ none 20 0 =
      (⟨true, [⟨0, 0, [1], [2]⟩, ⟨0, 0, [3], [4]⟩]⟩, none, none) :=
  C9_splitTwo_skip _ none 20 0 (Or.inl (by decide))

/-- C8: whenever `splitTwo` actually splits (returns a second node),
the split index lies between `minKeysPerPage` and
`len(inodes) - minKeysPerPage`, so both resulting nodes hold at least
`minKeysPerPage = 2` entries. -/
theorem C8_splitTwo_both_sides_min_keys (n : SNode) (parent : Option PNode)
    (pageSize threshold : Nat) (a b : SNode) (p2 : Option PNode)
    (h : splitTwo n parent pageSize threshold = (a, some b, p2)) :
    minKeysPerPage ≤ (splitIndex n threshold).1 ∧
    (splitIndex n threshold).1 + minKeysPerPage ≤ n.inodes.length ∧
    minKeysPerPage ≤ a.inodes.length ∧ minKeysPerPage ≤ b.inodes.length := by
  by_cases hc : n.inodes.length ≤ minKeysPerPage * 2 ∨
      (sizeLessThan n pageSize : Bool) = true
  · rw [splitTwo.eq_def, if_pos hc] at h
    simp only [Prod.mk.injEq] at h
    exact Option.noConfusion h.2.1
  · have hlen : 5 ≤ n.inodes.length := by
      push_neg at hc
      have := hc.1
      simp only [minKeysPerPage] at this
      omega
    have hbounds :
        minKeysPerPage ≤ (splitIndex n threshold).1 ∧
        (splitIndex n threshold).1 + 1 ≤
          n.inodes.length - minKeysPerPage := by
      unfold splitIndex
      have htl : (n.inodes.take (n.inodes.length - minKeysPerPage)).length =
          n.inodes.length - minKeysPerPage := by
        rw [List.length_take]
        omega
      have := splitIndexAux_bounds threshold (pageElementSize n.isLeaf)
        (n.inodes.take (n.inodes.length - minKeysPerPage)) 0 0 pageHeaderSize
        (by rw [htl]; simp only [minKeysPerPage]; omega)
        (Or.inl ⟨rfl, rfl⟩)
      simpa [htl] using this
    rw [splitTwo.eq_def, if_neg hc] at h
    simp only [Prod.mk.injEq, Option.some.injEq] at h
    obtain ⟨ha, hb, -⟩ := h
    have hsi : (splitIndex n threshold).1 + minKeysPerPage ≤
        n.inodes.length := by
      simp only [minKeysPerPage] at hbounds ⊢
      omega
    refine ⟨hbounds.1, hsi, ?_, ?_⟩
    · rw [← ha]
      simp only [List.length_take]
      simp only [minKeysPerPage] at hbounds ⊢
      omega
    · rw [← hb]
      simp only [List.length_drop]
      simp only [minKeysPerPage] at hbounds ⊢
      omega

/-- Characterization of Go's binary-search loop: if the predicate is
false strictly below `c` and true from `c` on within `[i, j)`, the loop
returns `c`. -/
theorem goSearchAux_eq (p : Nat → Bool) (c : Nat) :
    ∀ (fuel i j : Nat), j - i ≤ fuel → i ≤ c → c ≤ j →
      (∀ k, i ≤ k → k < c → p k = false) →
      (∀ k, c ≤ k → k < j → p k = true) →
      goSearchAux p fuel i j = c := by
  intro fuel
  induction fuel with
  | zero =>
      intro i j hf hic hcj _ _
      simp only [goSearchAux]
      omega
  | succ fuel ih =>
      intro i j hf hic hcj hlo hhi
      simp only [goSearchAux]
      by_cases hij : i < j
      · rw [if_pos hij]
        by_cases hp : p ((i + j) / 2) = true
        · rw [if_pos hp]
          have hch : c ≤ (i + j) / 2 := by
            by_contra hch
            push_neg at hch
            have := hlo ((i + j) / 2) (by omega) (by omega)
            rw [hp] at this
            exact Bool.noConfusion this
          exact ih i ((i + j) / 2) (by omega) hic hch hlo
            (fun k hk1 hk2 => hhi k hk1 (by omega))
        · rw [if_neg hp]
          have hch : (i + j) / 2 < c := by
            by_contra hch
            push_neg at hch
            exact hp (hhi ((i + j) / 2) (by omega) (by omega))
          exact ih ((i + j) / 2 + 1) j (by omega) (by omega) hcj
            (fun k hk1 hk2 => hlo k (by omega) hk2) hhi
      · rw [if_neg hij]
        omega

/-- `getD` with an in-range index is `getElem`. -/
theorem getD_eq_elem (l : List Nat) (i : Nat) (h : i < l.length) :
    l.getD i 0 = l[i] := by
  simp [List.getD_eq_getElem?_getD, List.getElem?_eq_getElem h]

/-- `leCount` never exceeds the list length. -/
theorem leCount_le (f0 : Nat) (l : List Nat) : leCount f0 l ≤ l.length := by
  induction l with
  | nil => simp [leCount]
  | cons x xs ih =>
      simp only [leCount, List.length_cons]
      by_cases hx : x ≤ f0
      · rw [if_pos hx]; omega
      · rw [if_neg hx]; omega

/-- Positions before `leCount` hold elements `≤ f0`. -/
theorem leCount_elems_le (f0 : Nat) (l : List Nat) :
    ∀ k, k < leCount f0 l → l.getD k 0 ≤ f0 := by
  induction l with
  | nil => intro k hk; simp [leCount] at hk
  | cons x xs ih =>
      intro k hk
      simp only [leCount] at hk
      by_cases hx : x ≤ f0
      · rw [if_pos hx] at hk
        cases k with
        | zero => simpa using hx
        | succ k2 => simpa using ih k2 (by omega)
      · rw [if_neg hx] at hk; omega

/-- A nonempty list whose head is `≤ f0` has positive `leCount`. -/
theorem leCount_pos (f0 : Nat) (l : List Nat) (hne : l ≠ [])
    (hh : l.headD 0 ≤ f0) : 1 ≤ leCount f0 l := by
  cases l with
  | nil => exact absurd rfl hne
  | cons x xs =>
      simp only [List.headD_cons] at hh
      simp only [leCount, if_pos hh]
      omega

/-- When `leCount` covers the whole list, every element is `≤ f0`. -/
theorem leCount_all (f0 : Nat) (l : List Nat) (h : leCount f0 l = l.length) :
    ∀ x ∈ l, x ≤ f0 := by
  induction l with
  | nil => simp
  | cons x xs ih =>
      simp only [leCount, List.length_cons] at h
      by_cases hx : x ≤ f0
      · rw [if_pos hx] at h
        intro y hy
        rcases List.mem_cons.mp hy with rfl | hy2
        · exact hx
        · exact ih (by omega) y hy2
      · rw [if_neg hx] at h
        intro y hy
        exact absurd h (by omega)

/-- Every element of the `leCount` prefix is `≤ f0`. -/
theorem leCount_take_le (f0 : Nat) (l : List Nat) :
    ∀ x ∈ l.take (leCount f0 l), x ≤ f0 := by
  induction l with
  | nil => simp
  | cons a xs ih =>
      by_cases ha : a ≤ f0
      · simp only [leCount, if_pos ha, List.take_succ_cons]
        intro x hx
        rcases List.mem_cons.mp hx with rfl | hx2
        · exact ha
        · exact ih x hx2
      · simp only [leCount, if_neg ha, List.take_zero]
        simp

/-- In a sorted list, the head bounds every element from below. -/
theorem sorted_headD_le (l : List Nat) (hs : List.Sorted (· ≤ ·) l) :
    ∀ y ∈ l, l.headD 0 ≤ y := by
  cases l with
  | nil => simp
  | cons x xs =>
      intro y hy
      rcases List.mem_cons.mp hy with rfl | hy2
      · simp
      · simpa using (List.sorted_cons.mp hs).1 y hy2

/-- In a sorted list, the element right after the `≤ f0` prefix is
`> f0`. -/
theorem leCount_boundary (f0 : Nat) :
    ∀ l : List Nat, List.Sorted (· ≤ ·) l → leCount f0 l < l.length →
      f0 < l.getD (leCount f0 l) 0 := by
  intro l
  induction l with
  | nil => intro _ hlt; simp at hlt
  | cons x xs ih =>
      intro hs hlt
      by_cases hx : x ≤ f0
      · simp only [leCount, if_pos hx, List.length_cons] at hlt ⊢
        simpa [List.getD_cons_succ] using
          ih (List.sorted_cons.mp hs).2 (by omega)
      · simp only [leCount, if_neg hx, List.getD_cons_zero]
        omega

/-- Sorted lists are monotone in their (defaulted) indexing. -/
theorem sorted_getD_mono (l : List Nat) (hs : List.Sorted (· ≤ ·) l)
    (a b : Nat) (hab : a ≤ b) (hb : b < l.length) :
    l.getD a 0 ≤ l.getD b 0 := by
  rcases Nat.eq_or_lt_of_le hab with rfl | hlt
  · exact le_refl _
  · rw [getD_eq_elem l a (by omega), getD_eq_elem l b hb]
    exact List.pairwise_iff_getElem.mp hs a b (by omega) hb hlt

/-- On a sorted `lead`, Go's `sort.Search` for the first element
`> f0` returns the length of the `≤ f0` prefix. -/
theorem goSearch_leCount (lead : List Nat) (f0 : Nat)
    (hs : List.Sorted (· ≤ ·) lead) :
    goSearch lead.length (fun i => decide (f0 < lead.getD i 0)) =
      leCount f0 lead := by
  unfold goSearch
  refine goSearchAux_eq _ (leCount f0 lead) lead.length 0 lead.length
    (by omega) (by omega) (leCount_le f0 lead) ?_ ?_
  · intro k _ hk
    simp only [decide_eq_false_iff_not, not_lt]
    exact leCount_elems_le f0 lead k hk
  · intro k hk1 hk2
    simp only [decide_eq_true_eq]
    exact lt_of_lt_of_le (leCount_boundary f0 lead hs (by omega))
      (sorted_getD_mono lead hs _ k hk1 hk2)

/-- The head of a dropped sorted list is the element at the drop
index. -/
theorem drop_headD (l : List Nat) (c : Nat) (hc : c < l.length) :
    (l.drop c).headD 0 = l.getD c 0 := by
  rw [List.drop_eq_getElem_cons hc]
  simp [getD_eq_elem l c hc]

/-- Writing within capacity is splicing. -/
theorem setRange_eq (dst : List Nat) (i : Nat) (xs : List Nat)
    (h : i + xs.length ≤ dst.length) :
    setRange dst i xs = dst.take i ++ xs ++ dst.drop (i + xs.length) := by
  unfold setRange
  rw [List.take_append_eq_append_take]
  rw [List.take_of_length_le (l := xs) (by omega)]
  rw [List.take_of_length_le (l := dst.drop (i + xs.length))
    (by rw [List.length_drop]; omega)]
  rw [List.append_assoc]

/-- Writing within capacity preserves the backing length. -/
theorem setRange_length (dst : List Nat) (i : Nat) (xs : List Nat)
    (h : i + xs.length ≤ dst.length) :
    (setRange dst i xs).length = dst.length := by
  rw [setRange_eq dst i xs h]
  simp only [List.length_append, List.length_take, List.length_drop]
  omega

/-- The fresh prefix after an in-capacity write. -/
theorem setRange_take (dst : List Nat) (i : Nat) (xs : List Nat)
    (h : i + xs.length ≤ dst.length) :
    (setRange dst i xs).take (i + xs.length) = dst.take i ++ xs := by
  rw [setRange_eq dst i xs h]
  refine List.take_left' ?_
  simp only [List.length_append, List.length_take]
  omega

/-- Bytes past an in-capacity write are untouched. -/
theorem setRange_drop (dst : List Nat) (i : Nat) (xs : List Nat)
    (h : i + xs.length ≤ dst.length) (n : Nat) (hn : i + xs.length ≤ n) :
    (setRange dst i xs).drop n = dst.drop n := by
  rw [setRange_eq dst i xs h]
  rw [List.drop_append_eq_append_drop]
  have hlen : (dst.take i ++ xs).length = i + xs.length := by
    simp only [List.length_append, List.length_take]
    omega
  rw [List.drop_eq_nil_of_le (by omega), List.nil_append, List.drop_drop]
  congr 1
  omega

/-- The merge loop followed by the final (result-discarded) append
writes, in place, a sorted permutation of `lead ++ follow` right after
the already-merged prefix. -/
theorem mergeLoop_spec :
    ∀ (fuel : Nat) (lead follow backing : List Nat) (mlen : Nat),
      List.Sorted (· ≤ ·) lead → List.Sorted (· ≤ ·) follow →
      lead ≠ [] → follow ≠ [] → lead.headD 0 ≤ follow.headD 0 →
      mlen + lead.length + follow.length ≤ backing.length →
      lead.length + follow.length ≤ fuel →
      ∃ w, List.Sorted (· ≤ ·) w ∧ w.Perm (lead ++ follow) ∧
        setRange (mergeLoop fuel backing mlen lead follow).1
            (mergeLoop fuel backing mlen lead follow).2.1
            (mergeLoop fuel backing mlen lead follow).2.2 =
          backing.take mlen ++ w ++
            backing.drop (mlen + (lead.length + follow.length)) := by
  intro fuel
  induction fuel with
  | zero =>
      intro lead follow backing mlen _ _ hln _ _ _ hfuel
      have := List.length_pos.mpr hln
      omega
  | succ fuel ih =>
      intro lead follow backing mlen hsl hsf hln hfn hhead hcap hfuel
      have hL : 0 < lead.length := List.length_pos.mpr hln
      have hF : 0 < follow.length := List.length_pos.mpr hfn
      simp only [mergeLoop]
      rw [if_neg (by omega)]
      rw [goSearch_leCount lead (follow.headD 0) hsl]
      have hcle : leCount (follow.headD 0) lead ≤ lead.length :=
        leCount_le _ lead
      have hc1 : 1 ≤ leCount (follow.headD 0) lead :=
        leCount_pos _ lead hln hhead
      have htkl : (lead.take (leCount (follow.headD 0) lead)).length =
          leCount (follow.headD 0) lead := by
        rw [List.length_take]
        omega
      by_cases hcl : lead.length ≤ leCount (follow.headD 0) lead
      · have hceq : leCount (follow.headD 0) lead = lead.length :=
          le_antisymm hcle hcl
        rw [if_pos hcl]
        have h1 : lead.take (leCount (follow.headD 0) lead) = lead := by
          rw [hceq]
          exact List.take_of_length_le (le_refl _)
        refine ⟨lead ++ follow, ?_, List.Perm.refl _, ?_⟩
        · refine List.pairwise_append.mpr ⟨hsl, hsf, ?_⟩
          intro x hx y hy
          have hx2 : x ≤ follow.headD 0 := leCount_all _ lead hceq x hx
          have hy2 : follow.headD 0 ≤ y := sorted_headD_le follow hsf y hy
          omega
        · simp only [h1]
          rw [setRange_eq (setRange backing mlen lead) (mlen + lead.length)
            follow (by rw [setRange_length backing mlen lead (by omega)]; omega)]
          rw [setRange_take backing mlen lead (by omega)]
          rw [setRange_drop backing mlen lead (by omega)
            (mlen + lead.length + follow.length) (by omega)]
          rw [Nat.add_assoc]
          simp [List.append_assoc]
      · push_neg at hcl
        rw [if_neg (by omega)]
        have hsdrop : List.Sorted (· ≤ ·)
            (lead.drop (leCount (follow.headD 0) lead)) :=
          List.Pairwise.sublist (List.drop_sublist _ lead) hsl
        have hdne : lead.drop (leCount (follow.headD 0) lead) ≠ [] := by
          intro h
          rw [List.drop_eq_nil_iff] at h
          omega
        have hbound : follow.headD 0 <
            lead.getD (leCount (follow.headD 0) lead) 0 :=
          leCount_boundary _ lead hsl hcl
        have hhead2 : follow.headD 0 ≤
            (lead.drop (leCount (follow.headD 0) lead)).headD 0 := by
          rw [drop_headD lead _ hcl]
          omega
        obtain ⟨w2, hw2s, hw2p, hw2e⟩ := ih follow
          (lead.drop (leCount (follow.headD 0) lead))
          (setRange backing mlen (lead.take (leCount (follow.headD 0) lead)))
          (mlen + (lead.take (leCount (follow.headD 0) lead)).length)
          hsf hsdrop hfn hdne hhead2
          (by
            rw [setRange_length backing mlen _ (by rw [htkl]; omega),
              List.length_drop, htkl]
            omega)
          (by rw [List.length_drop]; omega)
        refine ⟨lead.take (leCount (follow.headD 0) lead) ++ w2, ?_, ?_, ?_⟩
        · refine List.pairwise_append.mpr
            ⟨List.Pairwise.sublist (List.take_sublist _ lead) hsl, hw2s, ?_⟩
          intro x hx y hy
          have hx2 : x ≤ follow.headD 0 := leCount_take_le _ lead x hx
          have hy2 : follow.headD 0 ≤ y := by
            rcases List.mem_append.mp (hw2p.mem_iff.mp hy) with hyf | hyd
            · exact sorted_headD_le follow hsf y hyf
            · have := sorted_headD_le _ hsdrop y hyd
              rw [drop_headD lead _ hcl] at this
              omega
          omega
        · refine ((hw2p.append_left
              (lead.take (leCount (follow.headD 0) lead))).trans
            ((List.perm_append_comm).append_left _)).trans ?_
          rw [← List.append_assoc, List.take_append_drop]
        · rw [hw2e]
          rw [setRange_take backing mlen _ (by rw [htkl]; omega)]
          rw [setRange_drop backing mlen _ (by rw [htkl]; omega) _
            (by omega)]
          have hidx : mlen + (lead.take (leCount (follow.headD 0) lead)).length
              + (follow.length +
                (lead.drop (leCount (follow.headD 0) lead)).length) =
              mlen + (lead.length + follow.length) := by
            rw [htkl, List.length_drop]
            omega
          rw [hidx]
          simp [List.append_assoc]

/-- C7 amended: `mergepgids` does write the complete sorted merge of
`a` and `b` into `dst` — the final `append` with discarded result
still mutates `dst`'s backing array in place, because the appends stay
within `len(dst)`. -/
theorem C7_mergepgids_writes_full_merge (a b dst : List Nat)
    (hsa : List.Sorted (· ≤ ·) a) (hsb : List.Sorted (· ≤ ·) b)
    (hna : a ≠ []) (hnb : b ≠ [])
    (hlen : dst.length = a.length + b.length) :
    ∃ r, mergepgids dst a b = some r ∧ r.length = dst.length ∧
      List.Sorted (· ≤ ·) r ∧ r.Perm (a ++ b) := by
  have hA : 0 < a.length := List.length_pos.mpr hna
  have hB : 0 < b.length := List.length_pos.mpr hnb
  simp only [mergepgids]
  rw [if_neg (by omega), if_neg (by omega), if_neg (by omega)]
  by_cases hsel : b.headD 0 < a.headD 0
  · rw [if_pos hsel]
    obtain ⟨w, hws, hwp, hwe⟩ := mergeLoop_spec
      (2 * (a.length + b.length) + 2) b a dst 0 hsb hsa hnb hna
      (le_of_lt hsel) (by omega) (by omega)
    refine ⟨_, rfl, ?_, ?_, ?_⟩
    · rw [hwe]
      simp only [List.take_zero, List.nil_append, List.length_append,
        List.length_drop]
      have := hwp.length_eq
      simp only [List.length_append] at this
      omega
    · rw [hwe]
      simp only [List.take_zero, List.nil_append]
      rw [List.drop_eq_nil_of_le (by omega), List.append_nil]
      exact hws
    · rw [hwe]
      simp only [List.take_zero, List.nil_append]
      rw [List.drop_eq_nil_of_le (by omega), List.append_nil]
      exact hwp.trans List.perm_append_comm
  · rw [if_neg hsel]
    obtain ⟨w, hws, hwp, hwe⟩ := mergeLoop_spec
      (2 * (a.length + b.length) + 2) a b dst 0 hsa hsb hna hnb
      (Nat.le_of_not_lt hsel) (by omega) (by omega)
    refine ⟨_, rfl, ?_, ?_, ?_⟩
    · rw [hwe]
      simp only [List.take_zero, List.nil_append, List.length_append,
        List.length_drop]
      have := hwp.length_eq
      simp only [List.length_append] at this
      omega
    · rw [hwe]
      simp only [List.take_zero, List.nil_append]
      rw [List.drop_eq_nil_of_le (by omega), List.append_nil]
      exact hws
    · rw [hwe]
      simp only [List.take_zero, List.nil_append]
      rw [List.drop_eq_nil_of_le (by omega), List.append_nil]
      exact hwp

/-- C7 amended, witness: merging `[2,5]` and `[1,7]` into a length-4
destination yields the complete sorted merge. -/
theorem C7_mergepgids_writes_full_merge_witness :
    ∃ r, mergepgids [0, 0, 0, 0] [2, 5] [1, 7] = some r ∧
      r.length = ([0, 0, 0, 0] : List Nat).length ∧
      List.Sorted (· ≤ ·) r ∧ r.Perm ([2, 5] ++ [1, 7]) :=
  C7_mergepgids_writes_full_merge [2, 5] [1, 7] [0, 0, 0, 0]
    (by decide) (by decide) (by decide) (by decide) (by decide)

/-- C7 counterexample: on `a = [1,3]`, `b = [2,4]`,
`dst = [0,0,0,0]` the merge loop exits with `[4]` still pending in
`follow`, yet after `mergepgids` the destination holds the complete
sorted merge `[1,2,3,4]` — the discarded final `append` did write the
tail in place, refuting the claim that the tail is never committed. -/
theorem C7_mergepgids_tail_is_committed :
    (mergeLoop 10 [0, 0, 0, 0] 0 [1, 3] [2, 4]).2.2 = [4] ∧
    mergepgids [0, 0, 0, 0] [1, 3] [2, 4] = some [1, 2, 3, 4] ∧
    List.Sorted (· ≤ ·) [1, 2, 3, 4] ∧
    ([1, 2, 3, 4] : List Nat).Perm ([1, 3] ++ [2, 4]) := by
  refine ⟨by decide, by decide, by decide, by decide⟩

/-- Split a list at an in-range index into prefix, element, suffix. -/
theorem take_getD_drop (l : List Nat) :
    ∀ i : Nat, i < l.length → l = l.take i ++ l.getD i 0 :: l.drop (i + 1) := by
  induction l with
  | nil => intro i h; simp at h
  | cons x xs ih =>
      intro i h
      cases i with
      | zero => simp
      | succ n =>
          simp only [List.take_succ_cons, List.getD_cons_succ,
            List.drop_succ_cons, List.cons_append, List.cons.injEq, true_and]
          exact ih n (by simpa using h)

/-- One FNV-1a step stays below `2^64`. -/
theorem fnv1aStep_lt (h b : Nat) : fnv1aStep h b < 18446744073709551616 :=
  Nat.mod_lt _ (by norm_num)

/-- `2^64` and the FNV prime are coprime (the prime is odd). -/
theorem gcd_two_pow_fnvPrime : Nat.gcd 18446744073709551616 fnvPrime = 1 := by
  have h2 : Nat.Coprime 2 fnvPrime :=
    Nat.coprime_two_left.mpr (Nat.odd_iff.mpr (by norm_num [fnvPrime]))
  have : Nat.Coprime (2 ^ 64) fnvPrime := Nat.Coprime.pow_left 64 h2
  simpa [Nat.Coprime] using this

/-- An FNV-1a step is injective in the hash accumulator (for values
below `2^64`). -/
theorem fnv1aStep_inj_hash (h1 h2 b : Nat) (hh1 : h1 < 18446744073709551616)
    (hh2 : h2 < 18446744073709551616) (hb : b < 18446744073709551616)
    (hne : h1 ≠ h2) : fnv1aStep h1 b ≠ fnv1aStep h2 b := by
  intro heq
  have hx : (h1 ^^^ b) < 18446744073709551616 := by
    have := Nat.xor_lt_two_pow (n := 64) (by simpa using hh1) (by simpa using hb)
    simpa using this
  have hy : (h2 ^^^ b) < 18446744073709551616 := by
    have := Nat.xor_lt_two_pow (n := 64) (by simpa using hh2) (by simpa using hb)
    simpa using this
  have heq2 : (h1 ^^^ b) * fnvPrime % 18446744073709551616 =
      (h2 ^^^ b) * fnvPrime % 18446744073709551616 := by
    simpa [fnv1aStep] using heq
  have hmod : (h1 ^^^ b) ≡ (h2 ^^^ b) [MOD 18446744073709551616] :=
    Nat.ModEq.cancel_right_of_coprime gcd_two_pow_fnvPrime heq2
  have : (h1 ^^^ b) = (h2 ^^^ b) := by
    have h := hmod
    unfold Nat.ModEq at h
    rwa [Nat.mod_eq_of_lt hx, Nat.mod_eq_of_lt hy] at h
  exact hne (Nat.xor_left_inj.mp this)

/-- An FNV-1a step is injective in the byte. -/
theorem fnv1aStep_inj_byte (h b1 b2 : Nat) (hh : h < 18446744073709551616)
    (hb1 : b1 < 18446744073709551616) (hb2 : b2 < 18446744073709551616)
    (hne : b1 ≠ b2) : fnv1aStep h b1 ≠ fnv1aStep h b2 := by
  intro heq
  have hx : (h ^^^ b1) < 18446744073709551616 := by
    have := Nat.xor_lt_two_pow (n := 64) (by simpa using hh) (by simpa using hb1)
    simpa using this
  have hy : (h ^^^ b2) < 18446744073709551616 := by
    have := Nat.xor_lt_two_pow (n := 64) (by simpa using hh) (by simpa using hb2)
    simpa using this
  have heq2 : (h ^^^ b1) * fnvPrime % 18446744073709551616 =
      (h ^^^ b2) * fnvPrime % 18446744073709551616 := by
    simpa [fnv1aStep] using heq
  have hmod : (h ^^^ b1) ≡ (h ^^^ b2) [MOD 18446744073709551616] :=
    Nat.ModEq.cancel_right_of_coprime gcd_two_pow_fnvPrime heq2
  have hxe : (h ^^^ b1) = (h ^^^ b2) := by
    have h2 := hmod
    unfold Nat.ModEq at h2
    rwa [Nat.mod_eq_of_lt hx, Nat.mod_eq_of_lt hy] at h2
  exact hne (Nat.xor_right_inj.mp hxe)

/-- Folding FNV-1a over a common suffix preserves distinctness of the
accumulators. -/
theorem fnv1a_foldl_inj (suf : List Nat) :
    ∀ h1 h2 : Nat, h1 < 18446744073709551616 → h2 < 18446744073709551616 →
      (∀ b ∈ suf, b < 18446744073709551616) → h1 ≠ h2 →
      suf.foldl fnv1aStep h1 ≠ suf.foldl fnv1aStep h2 := by
  induction suf with
  | nil => intro h1 h2 _ _ _ hne; simpa using hne
  | cons b rest ih =>
      intro h1 h2 hh1 hh2 hb hne
      simp only [List.foldl_cons]
      exact ih _ _ (fnv1aStep_lt _ _) (fnv1aStep_lt _ _)
        (fun x hx => hb x (List.mem_cons_of_mem _ hx))
        (fnv1aStep_inj_hash h1 h2 b hh1 hh2
          (hb b (List.mem_cons_self _ _)) hne)

/-- FNV-1a distinguishes byte strings that differ in exactly one byte. -/
theorem fnv1a_single_byte_diff (pre suf : List Nat) (b1 b2 : Nat)
    (hb1 : b1 < 18446744073709551616) (hb2 : b2 < 18446744073709551616)
    (hsuf : ∀ b ∈ suf, b < 18446744073709551616) (hne : b1 ≠ b2) :
    fnv1a (pre ++ b1 :: suf) ≠ fnv1a (pre ++ b2 :: suf) := by
  unfold fnv1a
  rw [List.foldl_append, List.foldl_append]
  simp only [List.foldl_cons]
  have hpre : pre.foldl fnv1aStep fnvOffsetBasis < 18446744073709551616 := by
    induction pre using List.reverseRecOn with
    | nil => norm_num [fnvOffsetBasis]
    | append_singleton xs x _ =>
        rw [List.foldl_append]
        exact fnv1aStep_lt _ _
  exact fnv1a_foldl_inj suf _ _ (fnv1aStep_lt _ _) (fnv1aStep_lt _ _) hsuf
    (fnv1aStep_inj_byte _ b1 b2 hpre hb1 hb2 hne)

/-- Every byte produced by `u32le` is below 256. -/
theorem u32le_lt (v : Nat) : ∀ x ∈ u32le v, x < 256 := by
  intro x hx
  simp only [u32le, List.mem_cons, List.not_mem_nil, or_false] at hx
  rcases hx with rfl | rfl | rfl | rfl <;> exact Nat.mod_lt _ (by norm_num)

/-- Every byte produced by `u64le` is below 256. -/
theorem u64le_lt (v : Nat) : ∀ x ∈ u64le v, x < 256 := by
  intro x hx
  simp only [u64le, List.mem_cons, List.not_mem_nil, or_false] at hx
  rcases hx with rfl | rfl | rfl | rfl | rfl | rfl | rfl | rfl <;>
    exact Nat.mod_lt _ (by norm_num)

/-- Every byte of the serialized meta header is below 256. -/
theorem metaBytes_lt (m : MetaS) : ∀ x ∈ metaBytes m, x < 256 := by
  intro x hx
  simp only [metaBytes, List.mem_append] at hx
  rcases hx with ((hx | hx) | hx) | hx
  · exact u32le_lt _ _ hx
  · exact u32le_lt _ _ hx
  · exact u64le_lt _ _ hx
  · exact u64le_lt _ _ hx

/-- C10: `sum64` is FNV-1a/64 of exactly the 24 bytes of the meta
preceding the checksum field, and flipping a single bit of those 24
bytes changes the checksum (each FNV-1a step is a bijection of the
accumulator modulo `2^64`, so a one-byte difference propagates). -/
theorem C10_sum64_fnv1a_single_bit :
    (∀ m : MetaS, sum64 m = fnv1a (metaBytes m) ∧ (metaBytes m).length = 24) ∧
    (∀ (m1 m2 : MetaS) (i k : Nat), i < 24 →
      (metaBytes m1).getD i 0 ^^^ (metaBytes m2).getD i 0 = 2 ^ k →
      (∀ j, j < 24 → j ≠ i →
        (metaBytes m1).getD j 0 = (metaBytes m2).getD j 0) →
      sum64 m1 ≠ sum64 m2) := by
  refine ⟨fun m => ⟨rfl, rfl⟩, ?_⟩
  intro m1 m2 i k hi hxor hagree
  have hlen1 : (metaBytes m1).length = 24 := rfl
  have hlen2 : (metaBytes m2).length = 24 := rfl
  have hi1 : i < (metaBytes m1).length := by omega
  have hi2 : i < (metaBytes m2).length := by omega
  have hbne : (metaBytes m1).getD i 0 ≠ (metaBytes m2).getD i 0 := by
    intro he
    rw [he, Nat.xor_self] at hxor
    exact absurd hxor.symm (Nat.pos_iff_ne_zero.mp
      (pow_pos (by norm_num : (0 : Nat) < 2) k))
  have htake : (metaBytes m1).take i = (metaBytes m2).take i := by
    apply List.ext_getElem
    · simp [hlen1, hlen2]
    · intro j hj1 hj2
      have hj : j < i := by
        rw [List.length_take] at hj1
        omega
      rw [List.getElem_take, List.getElem_take]
      have := hagree j (by omega) (by omega)
      rwa [getD_eq_elem (metaBytes m1) j (by omega),
        getD_eq_elem (metaBytes m2) j (by omega)] at this
  have hdrop : (metaBytes m1).drop (i + 1) = (metaBytes m2).drop (i + 1) := by
    apply List.ext_getElem
    · simp [hlen1, hlen2]
    · intro j hj1 hj2
      have hj : i + 1 + j < 24 := by
        rw [List.length_drop, hlen1] at hj1
        omega
      rw [List.getElem_drop, List.getElem_drop]
      have := hagree (i + 1 + j) (by omega) (by omega)
      rwa [getD_eq_elem (metaBytes m1) (i + 1 + j) (by omega),
        getD_eq_elem (metaBytes m2) (i + 1 + j) (by omega)] at this
  have hd1 := take_getD_drop (metaBytes m1) i hi1
  have hd2 := take_getD_drop (metaBytes m2) i hi2
  unfold sum64
  rw [hd1, hd2, htake, hdrop]
  exact fnv1a_single_byte_diff _ _ _ _
    (lt_trans (metaBytes_lt m1 _ (by
      rw [getD_eq_elem _ _ hi1]; exact List.getElem_mem _)) (by norm_num))
    (lt_trans (metaBytes_lt m2 _ (by
      rw [getD_eq_elem _ _ hi2]; exact List.getElem_mem _)) (by norm_num))
    (fun b hb => lt_trans
      (metaBytes_lt m2 _ (List.drop_subset _ _ hb)) (by norm_num))
    hbne

/-- C10 witness: two metas whose version fields differ in bit 1
(`1` vs `3`) hash differently. -/
theorem C10_sum64_fnv1a_single_bit_witness :
    sum64 ⟨1, 4096, 3, 7, 0⟩ ≠ sum64 ⟨3, 4096, 3, 7, 0⟩ :=
  C10_sum64_fnv1a_single_bit.2 ⟨1, 4096, 3, 7, 0⟩ ⟨3, 4096, 3, 7, 0⟩ 0 1
    (by decide) (by decide) (by decide)

/-- Byte-store writes do not touch addresses outside their range. -/
theorem writeBytes_agree : ∀ (l : List Nat) (m : Mem) (a x : Nat),
    (x < a ∨ a + l.length ≤ x) → writeBytes m a l x = m x := by
  intro l
  induction l with
  | nil => intro m a x _; rfl
  | cons b bs ih =>
      intro m a x hx
      simp only [writeBytes]
      rw [ih _ _ _ (by simp only [List.length_cons] at hx; omega)]
      unfold writeByte
      rw [if_neg (by simp only [List.length_cons] at hx; omega)]

/-- Byte-store writes land where expected. -/
theorem writeBytes_get : ∀ (l : List Nat) (m : Mem) (a k : Nat),
    k < l.length → writeBytes m a l (a + k) = l.getD k 0 := by
  intro l
  induction l with
  | nil => intro m a k hk; simp at hk
  | cons b bs ih =>
      intro m a k hk
      simp only [writeBytes]
      cases k with
      | zero =>
          simp only [Nat.add_zero, List.getD_cons_zero]
          rw [writeBytes_agree bs _ (a + 1) a (by omega)]
          simp [writeByte]
      | succ k2 =>
          have : a + (k2 + 1) = (a + 1) + k2 := by omega
          rw [this, ih _ (a + 1) k2 (by simpa using hk)]
          simp

/-- Reading `n+1` bytes peels the first. -/
theorem readBytes_succ (m : Mem) (a n : Nat) :
    readBytes m a (n + 1) = m a :: readBytes m (a + 1) n := by
  unfold readBytes
  rw [List.range_succ_eq_map]
  simp only [List.map_cons, Nat.add_zero, List.map_map]
  congr 1
  apply List.map_congr_left
  intro i _
  simp only [Function.comp_apply, Nat.succ_eq_add_one]
  congr 1
  omega

/-- Reading back exactly what was written. -/
theorem readBytes_writeBytes : ∀ (l : List Nat) (m : Mem) (a : Nat),
    readBytes (writeBytes m a l) a l.length = l := by
  intro l
  induction l with
  | nil => intro m a; rfl
  | cons b bs ih =>
      intro m a
      simp only [writeBytes, List.length_cons]
      rw [readBytes_succ]
      congr 1
      · rw [writeBytes_agree bs _ (a + 1) a (by omega)]
        simp [writeByte]
      · exact ih _ (a + 1)

/-- `readBytes` only depends on the bytes it reads. -/
theorem readBytes_congr (M N : Mem) (a len : Nat)
    (h : ∀ x, a ≤ x → x < a + len → M x = N x) :
    readBytes M a len = readBytes N a len := by
  unfold readBytes
  apply List.map_congr_left
  intro i hi
  exact h (a + i) (by omega) (by simp only [List.mem_range] at hi; omega)

/-- `readU16` only depends on its two bytes. -/
theorem readU16_congr (M N : Mem) (a : Nat)
    (h : ∀ x, a ≤ x → x < a + 2 → M x = N x) : readU16 M a = readU16 N a := by
  unfold readU16
  rw [h a (by omega) (by omega), h (a + 1) (by omega) (by omega)]

/-- `readU32` only depends on its four bytes. -/
theorem readU32_congr (M N : Mem) (a : Nat)
    (h : ∀ x, a ≤ x → x < a + 4 → M x = N x) : readU32 M a = readU32 N a := by
  unfold readU32
  rw [h a (by omega) (by omega), h (a + 1) (by omega) (by omega),
    h (a + 2) (by omega) (by omega), h (a + 3) (by omega) (by omega)]

/-- A u16 store writes only its two bytes. -/
theorem writeU16_agree (m : Mem) (a v x : Nat) (hx : x < a ∨ a + 2 ≤ x) :
    writeU16 m a v x = m x :=
  writeBytes_agree _ m a x (by simpa using hx)

/-- A u32 store writes only its four bytes. -/
theorem writeU32_agree (m : Mem) (a v x : Nat) (hx : x < a ∨ a + 4 ≤ x) :
    writeU32 m a v x = m x :=
  writeBytes_agree _ m a x (by simpa [u32le] using hx)

/-- A u16 store followed by a read at the same address truncates to 16
bits. -/
theorem readU16_writeU16 (m : Mem) (a v : Nat) :
    readU16 (writeU16 m a v) a = v % 65536 := by
  unfold readU16 writeU16
  have h0 := writeBytes_get [v % 256, v / 256 % 256] m a 0 (by simp)
  have h1 := writeBytes_get [v % 256, v / 256 % 256] m a 1 (by simp)
  rw [Nat.add_zero] at h0
  rw [h0, h1]
  simp only [List.getD_cons_zero, List.getD_cons_succ]
  omega

/-- A u32 store followed by a read at the same address truncates to 32
bits. -/
theorem readU32_writeU32 (m : Mem) (a v : Nat) :
    readU32 (writeU32 m a v) a = v % 4294967296 := by
  unfold readU32 writeU32 u32le
  have h0 := writeBytes_get
    [v % 256, v / 256 % 256, v / 65536 % 256, v / 16777216 % 256] m a 0
    (by simp)
  have h1 := writeBytes_get
    [v % 256, v / 256 % 256, v / 65536 % 256, v / 16777216 % 256] m a 1
    (by simp)
  have h2 := writeBytes_get
    [v % 256, v / 256 % 256, v / 65536 % 256, v / 16777216 % 256] m a 2
    (by simp)
  have h3 := writeBytes_get
    [v % 256, v / 256 % 256, v / 65536 % 256, v / 16777216 % 256] m a 3
    (by simp)
  rw [Nat.add_zero] at h0
  rw [h0, h1, h2, h3]
  simp only [List.getD_cons_zero, List.getD_cons_succ]
  omega

/-- `dataSizes` distributes over `cons`. -/
theorem dataSizes_cons (it : Inode) (l : List Inode) :
    dataSizes (it :: l) = it.key.length + it.value.length + dataSizes l := by
  simp [dataSizes]

/-- Prefix data sizes are bounded by the total. -/
theorem dataSizes_take_le (l : List Inode) (j : Nat) :
    dataSizes (l.take j) ≤ dataSizes l := by
  induction l generalizing j with
  | nil => simp [dataSizes]
  | cons it rest ih =>
      cases j with
      | zero => simp [dataSizes]
      | succ j2 =>
          rw [List.take_succ_cons, dataSizes_cons, dataSizes_cons]
          have := ih j2
          omega

/-- Each entry's data is bounded by the total data size. -/
theorem entry_le_dataSizes (l : List Inode) :
    ∀ it ∈ l, it.key.length + it.value.length ≤ dataSizes l := by
  induction l with
  | nil => simp
  | cons a rest ih =>
      intro it hit
      rw [dataSizes_cons]
      rcases List.mem_cons.mp hit with rfl | h2
      · omega
      · have := ih it h2
        omega

/-- The serialized size of a leaf node in terms of `dataSizes`. -/
theorem size_leaf_eq (n : SNode) (h : n.isLeaf = true) :
    size n = pageHeaderSize + leafPageElementSize * n.inodes.length +
      dataSizes n.inodes := by
  unfold size
  rw [h]
  have : ∀ l : List Inode,
      (l.map (fun it =>
        pageElementSize true + it.key.length + it.value.length)).sum =
        leafPageElementSize * l.length + dataSizes l := by
    intro l
    induction l with
    | nil => simp [dataSizes]
    | cons a rest ih =>
        simp only [List.map_cons, List.sum_cons, dataSizes_cons, ih,
          List.length_cons]
        have hpe : pageElementSize true = 16 := rfl
        have hle : leafPageElementSize = 16 := rfl
        rw [hpe, hle]
        omega
  rw [this]
  omega

/-- Unfolding of one leaf-element write (`pageHeaderSize` and
`leafPageElementSize` are both 16). -/
theorem writeInodeElems_cons_leaf (m : Mem) (idx d : Nat) (it : Inode)
    (rest : List Inode) (h : 0 < it.key.length + it.value.length) :
    writeInodeElems m true idx d (it :: rest) =
      writeInodeElems
        (writeBytes (writeBytes (writeU32 (writeU32 (writeU32 (writeU32 m
          (16 + 16 * idx + 4) (d - (16 + 16 * idx)))
          (16 + 16 * idx) it.flags)
          (16 + 16 * idx + 8) it.key.length)
          (16 + 16 * idx + 12) it.value.length)
          d it.key)
          (d + it.key.length) it.value)
        true (idx + 1) (d + (it.key.length + it.value.length)) rest := by
  simp only [writeInodeElems]
  rw [if_neg (by omega)]
  simp only [if_true]
  rfl

/-- Specification of the leaf-element write loop: it succeeds on
entries with data, writes each element header at
`16 + 16 * (idx + j)` and its key/value bytes at the running data
offset, and touches nothing below its element range nor between the
element range and the data offset. -/
theorem writeInodeElems_spec :
    ∀ (rest : List Inode) (m : Mem) (idx d : Nat),
      16 + 16 * (idx + rest.length) ≤ d →
      (∀ it ∈ rest, 0 < it.key.length + it.value.length) →
      ∃ m2, writeInodeElems m true idx d rest = some m2 ∧
        (∀ x, x < 16 + 16 * idx → m2 x = m x) ∧
        (∀ x, 16 + 16 * (idx + rest.length) ≤ x → x < d → m2 x = m x) ∧
        (∀ j, j < rest.length →
          readU32 m2 (16 + 16 * (idx + j)) =
            (rest.getD j default).flags % 4294967296 ∧
          readU32 m2 (16 + 16 * (idx + j) + 4) =
            (d + dataSizes (rest.take j) - (16 + 16 * (idx + j))) %
              4294967296 ∧
          readU32 m2 (16 + 16 * (idx + j) + 8) =
            (rest.getD j default).key.length % 4294967296 ∧
          readU32 m2 (16 + 16 * (idx + j) + 12) =
            (rest.getD j default).value.length % 4294967296 ∧
          readBytes m2 (d + dataSizes (rest.take j))
            (rest.getD j default).key.length = (rest.getD j default).key ∧
          readBytes m2
            (d + dataSizes (rest.take j) + (rest.getD j default).key.length)
            (rest.getD j default).value.length =
            (rest.getD j default).value) := by
  intro rest
  induction rest with
  | nil =>
      intro m idx d _ _
      exact ⟨m, rfl, fun x _ => rfl, fun x _ _ => rfl,
        fun j hj => absurd hj (by simp)⟩
  | cons it rest ih =>
      intro m idx d hd hpos
      simp only [List.length_cons] at hd
      have hdsz : 0 < it.key.length + it.value.length :=
        hpos it (List.mem_cons_self _ _)
      obtain ⟨F, hFdef⟩ : ∃ F : Mem, F =
          writeU32 (writeU32 (writeU32 (writeU32 m
            (16 + 16 * idx + 4) (d - (16 + 16 * idx)))
            (16 + 16 * idx) it.flags)
            (16 + 16 * idx + 8) it.key.length)
            (16 + 16 * idx + 12) it.value.length := ⟨_, rfl⟩
      obtain ⟨W, hWdef⟩ : ∃ W : Mem, W =
          writeBytes (writeBytes F d it.key) (d + it.key.length) it.value :=
        ⟨_, rfl⟩
      have hunfold : writeInodeElems m true idx d (it :: rest) =
          writeInodeElems W true (idx + 1)
            (d + (it.key.length + it.value.length)) rest := by
        rw [writeInodeElems_cons_leaf m idx d it rest hdsz, ← hFdef, ← hWdef]
      -- the four field writes and two data writes leave both the region
      -- below the element and the gap up to `d` untouched
      have hWm : ∀ x, (x < 16 + 16 * idx ∨
          (16 + 16 * (idx + 1) ≤ x ∧ x < d)) → W x = m x := by
        intro x hx
        rw [hWdef,
          writeBytes_agree it.value _ (d + it.key.length) x (by omega),
          writeBytes_agree it.key _ d x (by omega), hFdef,
          writeU32_agree _ (16 + 16 * idx + 12) _ x (by omega),
          writeU32_agree _ (16 + 16 * idx + 8) _ x (by omega),
          writeU32_agree _ (16 + 16 * idx) _ x (by omega),
          writeU32_agree _ (16 + 16 * idx + 4) _ x (by omega)]
      obtain ⟨m4, hrec, hlow4, hmid4, hspec4⟩ := ih W (idx + 1)
        (d + (it.key.length + it.value.length)) (by omega)
        (fun x hx => hpos x (List.mem_cons_of_mem _ hx))
      refine ⟨m4, by rw [hunfold]; exact hrec, ?_, ?_, ?_⟩
      · intro x hx
        rw [hlow4 x (by omega)]
        exact hWm x (Or.inl hx)
      · intro x hx1 hx2
        simp only [List.length_cons] at hx1
        rw [hmid4 x (by omega) (by omega)]
        exact hWm x (Or.inr (by omega))
      · intro j hj
        cases j with
        | zero =>
            have hdz : dataSizes ([] : List Inode) = 0 := rfl
            simp only [Nat.add_zero, List.getD_cons_zero, List.take_zero,
              hdz]
            -- transport each read from m4 to W
            have t1 : readU32 m4 (16 + 16 * idx) = readU32 W (16 + 16 * idx) :=
              readU32_congr _ _ _ (fun x hx1 hx2 => hlow4 x (by omega))
            have t2 : readU32 m4 (16 + 16 * idx + 4) =
                readU32 W (16 + 16 * idx + 4) :=
              readU32_congr _ _ _ (fun x hx1 hx2 => hlow4 x (by omega))
            have t3 : readU32 m4 (16 + 16 * idx + 8) =
                readU32 W (16 + 16 * idx + 8) :=
              readU32_congr _ _ _ (fun x hx1 hx2 => hlow4 x (by omega))
            have t4 : readU32 m4 (16 + 16 * idx + 12) =
                readU32 W (16 + 16 * idx + 12) :=
              readU32_congr _ _ _ (fun x hx1 hx2 => hlow4 x (by omega))
            have tk : readBytes m4 d it.key.length =
                readBytes W d it.key.length :=
              readBytes_congr _ _ _ _
                (fun x hx1 hx2 => hmid4 x (by omega) (by omega))
            have tv : readBytes m4 (d + it.key.length) it.value.length =
                readBytes W (d + it.key.length) it.value.length :=
              readBytes_congr _ _ _ _
                (fun x hx1 hx2 => hmid4 x (by omega) (by omega))
            -- strip the data writes for the field reads
            have sWF : ∀ a : Nat, a + 4 ≤ d →
                readU32 W a = readU32 F a := by
              intro a ha
              refine readU32_congr _ _ _ (fun x hx1 hx2 => ?_)
              rw [hWdef,
                writeBytes_agree it.value _ (d + it.key.length) x (by omega),
                writeBytes_agree it.key _ d x (by omega)]
            have hbound : 16 + 16 * idx + 16 ≤ d := by omega
            refine ⟨?_, ?_, ?_, ?_, ?_, ?_⟩
            · rw [t1, sWF _ (by omega), hFdef,
                readU32_congr _ _ _ (fun x hx1 hx2 =>
                  writeU32_agree _ (16 + 16 * idx + 12) _ x (by omega)),
                readU32_congr _ _ _ (fun x hx1 hx2 =>
                  writeU32_agree _ (16 + 16 * idx + 8) _ x (by omega)),
                readU32_writeU32]
            · rw [t2, sWF _ (by omega), hFdef,
                readU32_congr _ _ _ (fun x hx1 hx2 =>
                  writeU32_agree _ (16 + 16 * idx + 12) _ x (by omega)),
                readU32_congr _ _ _ (fun x hx1 hx2 =>
                  writeU32_agree _ (16 + 16 * idx + 8) _ x (by omega)),
                readU32_congr _ _ _ (fun x hx1 hx2 =>
                  writeU32_agree _ (16 + 16 * idx) _ x (by omega)),
                readU32_writeU32]
            · rw [t3, sWF _ (by omega), hFdef,
                readU32_congr _ _ _ (fun x hx1 hx2 =>
                  writeU32_agree _ (16 + 16 * idx + 12) _ x (by omega)),
                readU32_writeU32]
            · rw [t4, sWF _ (by omega), hFdef, readU32_writeU32]
            · rw [tk, hWdef,
                readBytes_congr _ _ _ _ (fun x hx1 hx2 =>
                  writeBytes_agree it.value _ (d + it.key.length) x
                    (by omega))]
              exact readBytes_writeBytes it.key _ d
            · rw [tv, hWdef]
              have := readBytes_writeBytes it.value (writeBytes F d it.key)
                (d + it.key.length)
              exact this
        | succ j2 =>
            simp only [List.length_cons] at hj
            have hs := hspec4 j2 (by omega)
            simp only [List.getD_cons_succ, List.take_succ_cons,
              dataSizes_cons]
            have e1 : 16 + 16 * (idx + (j2 + 1)) =
                16 + 16 * (idx + 1 + j2) := by omega
            have e2 : d + (it.key.length + it.value.length +
                dataSizes (rest.take j2)) =
                d + (it.key.length + it.value.length) +
                  dataSizes (rest.take j2) := by omega
            rw [e1, e2]
            exact hs

/-- `getD` with the default inode at an in-range index is `getElem`. -/
theorem getD_default_eq (l : List Inode) (i : Nat) (h : i < l.length) :
    l.getD i default = l[i] := by
  simp [List.getD_eq_getElem?_getD, List.getElem?_eq_getElem h]

/-- C4 counterexample: the claim, as stated, admits a leaf entry with
empty key and empty value; on such an entry `write` evaluates
`&pageElemData[0]` on an empty slice and panics (modelled as `none`),
so no round trip happens, although the node satisfies the claim's size
and count side conditions. -/
theorem C4_write_panics_on_empty_entry :
    write ⟨true, [⟨0, 0, [], []⟩]⟩ zeroMem = none ∧
    size ⟨true, [⟨0, 0, [], []⟩]⟩ ≤ 4096 ∧
    (⟨true, [⟨0, 0, [], []⟩]⟩ : SNode).inodes.length < 65536 := by
  refine ⟨rfl, by decide, by decide⟩

/-- C4 amended: for a leaf node all of whose entries carry at least one
key or value byte (so the data-pointer panic cannot fire), whose
serialized size fits the page buffer, whose buffer is addressable
through `unsafeByteSlice` (at most `maxAllocSize` bytes, the bound
unsafe.go imposes on every slice it builds), and whose entry count
fits a `uint16`, `write` into a zeroed buffer followed by `read` yields
a leaf node with the same flags, keys and values in the same order. -/
theorem C4_leaf_write_read_roundtrip (n : SNode) (B : Nat)
    (hleaf : n.isLeaf = true)
    (hflags : ∀ it ∈ n.inodes, it.flags < 4294967296)
    (hnz : ∀ it ∈ n.inodes, 0 < it.key.length + it.value.length)
    (hsz : size n ≤ B) (hB : B ≤ maxAllocSize)
    (hcount : n.inodes.length < 65536) :
    ∃ m2, write n zeroMem = some m2 ∧ (read m2).isLeaf = true ∧
      (read m2).inodes.map (fun it => (it.flags, it.key, it.value)) =
        n.inodes.map (fun it => (it.flags, it.key, it.value)) := by
  obtain ⟨bl, inl⟩ := n
  simp only [SNode.isLeaf] at hleaf
  subst hleaf
  simp only [SNode.inodes] at hflags hnz hcount ⊢
  obtain ⟨H, hHdef⟩ : ∃ Hm : Mem, Hm = writeU16 (writeU16 zeroMem 8
      (Nat.lor (readU16 zeroMem 8) leafPageFlag)) 10 inl.length :=
    ⟨_, rfl⟩
  have hH8 : readU16 H 8 = 2 := by
    rw [hHdef,
      readU16_congr _ _ 8 (fun x hx1 hx2 =>
        writeU16_agree _ 10 _ x (by omega)),
      readU16_writeU16]
    rfl
  have hH10 : readU16 H 10 = inl.length % 65536 := by
    rw [hHdef, readU16_writeU16]
  have hwrite : write ⟨true, inl⟩ zeroMem =
      (if inl.length % 65536 = 0 then some H
       else writeInodeElems H true 0 (16 + 16 * inl.length) inl) := by
    rw [hHdef]
    rfl
  have hszq : size ⟨true, inl⟩ = 16 + 16 * inl.length + dataSizes inl := by
    rw [size_leaf_eq ⟨true, inl⟩ rfl]
    rfl
  have hBlt : B < 4294967296 := by
    have : maxAllocSize = 2147483647 := rfl
    omega
  by_cases h0 : inl.length = 0
  · have h0' : inl = [] := List.length_eq_zero.mp h0
    subst h0'
    refine ⟨H, by rw [hwrite]; rfl, ?_, ?_⟩
    · simp only [read]
      rw [hH8]
      rfl
    · simp only [read]
      rw [hH10]
      rfl
  · have hmod : ¬ inl.length % 65536 = 0 := by
      rw [Nat.mod_eq_of_lt hcount]
      omega
    obtain ⟨m2, hrec, hlow, hmid, hspec⟩ := writeInodeElems_spec inl H 0
      (16 + 16 * inl.length) (by omega) hnz
    refine ⟨m2, by rw [hwrite, if_neg hmod]; exact hrec, ?_, ?_⟩
    · simp only [read]
      rw [readU16_congr m2 H 8 (fun x hx1 hx2 => hlow x (by omega)), hH8]
      rfl
    · have hm10 : readU16 m2 10 = inl.length := by
        rw [readU16_congr m2 H 10 (fun x hx1 hx2 => hlow x (by omega)),
          hH10, Nat.mod_eq_of_lt hcount]
      have hm8 : readU16 m2 8 = 2 := by
        rw [readU16_congr m2 H 8 (fun x hx1 hx2 => hlow x (by omega)), hH8]
      have hIs : decide (Nat.land (readU16 m2 8) leafPageFlag ≠ 0) = true :=
        by rw [hm8]; decide
      simp only [read, hIs, hm10]
      simp only [if_true]
      apply List.ext_getElem
      · simp
      · intro i hi1 hi2
        simp only [List.getElem_map, List.getElem_range]
        have hilen : i < inl.length := by simpa using hi2
        have hs := hspec i hilen
        simp only [Nat.zero_add] at hs
        have hoff : pageHeaderSize + pageElementSize true * i = 16 + 16 * i :=
          rfl
        rw [hoff]
        obtain ⟨hsf, hsp, hsk, hsv, hskey, hsval⟩ := hs
        have hmem : inl.getD i default ∈ inl := by
          rw [getD_default_eq inl i hilen]
          exact List.getElem_mem _
        have hflt : (inl.getD i default).flags < 4294967296 :=
          hflags _ hmem
        have hdata : (inl.getD i default).key.length +
            (inl.getD i default).value.length ≤ dataSizes inl :=
          entry_le_dataSizes inl _ hmem
        have hdst : dataSizes (inl.take i) ≤ dataSizes inl :=
          dataSizes_take_le inl i
        have hklt : (inl.getD i default).key.length < 4294967296 := by
          omega
        have hvlt : (inl.getD i default).value.length < 4294967296 := by
          omega
        have hposval : 16 + 16 * inl.length + dataSizes (inl.take i) -
            (16 + 16 * i) < 4294967296 := by
          omega
        rw [hsf, Nat.mod_eq_of_lt hflt, hsp, Nat.mod_eq_of_lt hposval,
          hsk, Nat.mod_eq_of_lt hklt, hsv, Nat.mod_eq_of_lt hvlt]
        have haddr : 16 + 16 * i +
            (16 + 16 * inl.length + dataSizes (inl.take i) -
              (16 + 16 * i)) =
            16 + 16 * inl.length + dataSizes (inl.take i) := by
          have : 16 + 16 * i + 16 ≤ 16 + 16 * inl.length := by omega
          omega
        rw [haddr, hskey, hsval, getD_default_eq inl i hilen]

/-- C4 amended, witness: a two-entry leaf round-trips through a
4096-byte buffer. -/
theorem C4_leaf_write_read_roundtrip_witness :
    ∃ m2, write ⟨true, [⟨7, 0, [1], [2]⟩, ⟨0, 0, [3], [4, 5]⟩]⟩ zeroMem =
        some m2 ∧
      (read m2).isLeaf = true ∧
      (read m2).inodes.map (fun it => (it.flags, it.key, it.value)) =
        ([⟨7, 0, [1], [2]⟩, ⟨0, 0, [3], [4, 5]⟩] : List Inode).map
          (fun it => (it.flags, it.key, it.value)) :=
  C4_leaf_write_read_roundtrip ⟨true, [⟨7, 0, [1], [2]⟩, ⟨0, 0, [3], [4, 5]⟩]⟩
    4096 rfl (by decide) (by decide) (by decide) (by decide) (by decide)

/-- C8 witness: the five-entry test node, page size 100, threshold 50
splits at index 2, both sides holding at least two entries. -/
theorem C8_splitTwo_both_sides_min_keys_witness :
    minKeysPerPage ≤ (splitIndex splitExampleNode 50).1 ∧
    (splitIndex splitExampleNode 50).1 + minKeysPerPage ≤
      splitExampleNode.inodes.length ∧
    minKeysPerPage ≤
      (⟨true, splitExampleNode.inodes.take 2⟩ : SNode).inodes.length ∧
    minKeysPerPage ≤
      (⟨true, splitExampleNode.inodes.drop 2⟩ : SNode).inodes.length :=
  C8_splitTwo_both_sides_min_keys splitExampleNode none 100 50
    ⟨true, splitExampleNode.inodes.take 2⟩
    ⟨true, splitExampleNode.inodes.drop 2⟩
    (some ⟨[⟨true, splitExampleNode.inodes.take 2⟩,
            ⟨true, splitExampleNode.inodes.drop 2⟩]⟩) (by decide)

/-- C1: the specified invariant — after any sequence of leaf puts the
`inodes` stay strictly ascending, mid-list inserts shifting later
entries right — is violated by the source: `put` shifts only when the
binary-search index is 0, so inserting `[2]` between `[1]` and `[3]`
overwrites the `[3]` entry and leaves the appended zero inode at the
end, producing an unsorted node. -/
theorem C1_put_midinsert_breaks_sort_order :
    putList [([1], [10]), ([3], [30]), ([2], [20])] =
      [⟨0, 0, [1], [10]⟩, ⟨0, 0, [2], [20]⟩, ⟨0, 0, [], []⟩] ∧
    ¬ inodesSorted (putList [([1], [10]), ([3], [30]), ([2], [20])]) := by
  decide

/-- C2: on the strictly sorted node `[([1],[10]), ([2],[20])]`,
`put(oldKey = [1], key = [5], ...)` is specified to replace the `[1]`
entry by a `[5]` entry, keeping the entry count and sortedness.  The
source instead finds index 0, compares the entry's key against the NEW
key (never against `oldKey`), appends an empty inode, duplicates the
head by the `idx == 0` shift and overwrites slot 0: the `[1]` entry
survives, the count grows to 3 and the node is unsorted. -/
theorem C2_put_replace_keeps_old_entry :
    put [⟨0, 0, [1], [10]⟩, ⟨0, 0, [2], [20]⟩] [1] [5] [50] 0 0 =
      [⟨0, 0, [5], [50]⟩, ⟨0, 0, [1], [10]⟩, ⟨0, 0, [2], [20]⟩] ∧
    keyCount (put [⟨0, 0, [1], [10]⟩, ⟨0, 0, [2], [20]⟩] [1] [5] [50] 0 0) [1]
      = 1 ∧
    (put [⟨0, 0, [1], [10]⟩, ⟨0, 0, [2], [20]⟩] [1] [5] [50] 0 0).length = 3 ∧
    ¬ inodesSorted (put [⟨0, 0, [1], [10]⟩, ⟨0, 0, [2], [20]⟩] [1] [5] [50] 0 0)
    := by decide

/-- C3: duplicate collapse — putting the same key twice leaves exactly
one entry for it — fails on the source.  The broken mid-list insert of
`[2]` leaves a zero inode whose key is the empty byte string; after
putting the empty key twice the node holds two entries with that key
(the put one and the stray one), not one. -/
theorem C3_duplicate_key_not_collapsed :
    putList [([1], [10]), ([3], [30]), ([2], [20]), ([], [7]), ([], [8])] =
      [⟨0, 0, [], [8]⟩, ⟨0, 0, [1], [10]⟩, ⟨0, 0, [2], [20]⟩, ⟨0, 0, [], []⟩] ∧
    keyCount
      (putList [([1], [10]), ([3], [30]), ([2], [20]), ([], [7]), ([], [8])])
      [] = 2 := by decide

/-- C5 counterexample: loading an existing database file goes through
`Open`, which validates only the meta of page 0 and fails on its error;
here meta 1 is valid (version 1, zero checksum) yet the load errors,
refuting "an error is returned only if both fail". -/
theorem C5_open_fails_with_one_valid_meta :
    validate ⟨1, 4096, 3, 5, 0⟩ = none ∧
    openExistingMetaCheck ⟨2, 4096, 3, 5, 0⟩ = some DbError.versionMismatch :=
  by decide

/-- C5 amended: `Open`'s load-time check is exactly the validation of
meta page 0, while `(*Db).mmap` validates both metas and returns an
error — `err0` — exactly when both fail; no transaction-id comparison
is involved anywhere. -/
theorem C5_meta_validation_as_implemented (m0 m1 : MetaS) :
    openExistingMetaCheck m0 = validate m0 ∧
    (mmapMetaCheck m0 m1 = none ↔
      (validate m0 = none ∨ validate m1 = none)) ∧
    (∀ e0, validate m0 = some e0 → validate m1 ≠ none →
      mmapMetaCheck m0 m1 = some e0) := by
  refine ⟨rfl, ?_, ?_⟩ <;>
    · unfold mmapMetaCheck
      rcases h0 : validate m0 with _ | e0 <;>
        rcases h1 : validate m1 with _ | e1 <;> simp

/-- C5 amended, witness: with meta 0 invalid and meta 1 valid, `mmap`
accepts. -/
theorem C5_meta_validation_as_implemented_witness :
    mmapMetaCheck ⟨2, 4096, 3, 5, 0⟩ ⟨1, 4096, 3, 5, 0⟩ = none :=
  (C5_meta_validation_as_implemented ⟨2, 4096, 3, 5, 0⟩
    ⟨1, 4096, 3, 5, 0⟩).2.1.mpr (Or.inr (by decide))

/-- C6: `validate` returns `VersionMismatch` exactly when the version
differs from the format version constant 1; with a matching version it
returns `Checksum` exactly when the checksum is non-zero and differs
from `sum64`; a zero checksum with matching version is accepted. -/
theorem C6_validate_characterization (m : MetaS) :
    (validate m = some DbError.versionMismatch ↔ m.version ≠ tinyDBVersion) ∧
    (m.version = tinyDBVersion →
      (validate m = some DbError.checksum ↔
        m.checksum ≠ 0 ∧ m.checksum ≠ sum64 m)) ∧
    (m.version = tinyDBVersion → m.checksum = 0 → validate m = none) := by
  by_cases h1 : m.version = tinyDBVersion
  · by_cases h2 : m.checksum ≠ 0 ∧ m.checksum ≠ sum64 m
    · have hv : validate m = some DbError.checksum := by simp [validate, h1, h2]
      rw [hv]; obtain ⟨h2a, h2b⟩ := h2; simp [h1, h2a, h2b]
    · have hv : validate m = none := by simp [validate, h1, h2]
      rw [hv]; simp [h1, h2]
  · have hv : validate m = some DbError.versionMismatch := by
      simp [validate, h1]
    rw [hv]; simp [h1]

/-- C6 witness: a meta with version 2 is rejected with
`VersionMismatch`; one with version 1 and zero checksum is accepted. -/
theorem C6_validate_characterization_witness :
    validate ⟨2, 0, 0, 0, 0⟩ = some DbError.versionMismatch ∧
    validate ⟨1, 0, 0, 0, 0⟩ = none :=
  ⟨(C6_validate_characterization ⟨2, 0, 0, 0, 0⟩).1.mpr (by decide),
   (C6_validate_characterization ⟨1, 0, 0, 0, 0⟩).2.2 rfl rfl⟩

end Tinydb
